import Mathlib

/-!
Verification development for pmdfonttool (src/main.rs).

The embedding models the three pure cores of the program:

* the greedy row atlas packer inside `build` (lines 178-222 of main.rs),
  with the u16 wrapping arithmetic the release build performs
  (`w16`), and the exact `copy_from` bounds check of the image crate;
* the slicer inside `generate` (lines 97-111), i.e. the image crate's
  `crop`, which clamps the requested rectangle to the image bounds
  (`crop_dimms` in image 0.23);
* the filename-stem metadata codec: `format!("{}_{}_{}_{}_{}_{}")` on the
  generate side and the six `split('_')` / `from_str` reads on the build
  side (lines 105-108 and 127-158).

Pixels are modelled as abstract `Nat` values; a bitmap is its dimensions
plus a pixel function.  u16 arithmetic is `Nat` with explicit `% 65536`
(release semantics; debug builds panic on overflow, which `checkedSub`
models where a claim depends on it).
-/

namespace PmdFontTool

/-- u16 wrapping arithmetic: reduce modulo 2^16, as the release build's
`u16` additions and multiplications do. -/
def w16 (n : Nat) : Nat := n % 65536

/-- Checked u16 subtraction, as a debug build performs it: `none` models the
overflow panic. -/
def checkedSub (a b : Nat) : Option Nat :=
  if b ≤ a then some (a - b) else none

/-- Wrapping u16 subtraction of 1, as `v - 1` behaves in a release build. -/
def sub1w (v : Nat) : Nat := (v + 65535) % 65536

/-- The rounding `((v - 1) / 8 + 1) * 8` of main.rs lines 212-213, performed
in wrapping u16 arithmetic. -/
def roundUp8w (v : Nat) : Nat := (sub1w v / 8 + 1) * 8 % 65536

/-- One glyph read by `build`: the `CharData` struct of main.rs (lines
79-88).  `image` is the decoded bitmap's pixel function; its dimensions are
`glyth_width`/`glyth_height` (measured from the file, `try_into` u16). -/
structure CharData where
  glyth_width : Nat
  glyth_height : Nat
  xalign : Int
  yalign : Int
  distance : Nat
  unk4 : Nat
  unk5 : Nat
  image : Nat → Nat → Nat

/-- One placed glyph record: the `KandChar` built in main.rs lines 197-208. -/
structure KandChar where
  char : Nat
  start_x : Nat
  start_y : Nat
  glyth_width : Nat
  glyth_height : Nat
  unk1 : Int
  unk2 : Int
  distance : Nat
  unk4 : Nat
  unk5 : Nat

/-- The mutable state threaded through the packing loop of main.rs lines
178-210: cursor, row bottom (`lower_y`), running maximum width, and the
accumulated `chars` vector (placed record plus its bitmap). -/
structure PackState where
  pos_x : Nat
  pos_y : Nat
  lower_y : Nat
  max_width : Nat
  chars : List (KandChar × (Nat → Nat → Nat))

/-- The loop body of main.rs lines 185-210, with u16 wrapping arithmetic.
`atlas_width` is still 512 at every comparison, since it is only
reassigned after the loop. -/
def placeChar (s : PackState) (g : Nat × CharData) : PackState :=
  let cd := g.2
  let x_at_end_of_char := w16 (s.pos_x + cd.glyth_width)
  let px := if 512 ≤ x_at_end_of_char then 0 else s.pos_x
  let py := if 512 ≤ x_at_end_of_char then s.lower_y else s.pos_y
  { pos_x := w16 (px + cd.glyth_width)
    pos_y := py
    lower_y := max s.lower_y (w16 (py + cd.glyth_height))
    max_width := max s.max_width cd.glyth_width
    chars := s.chars ++
      [(⟨g.1, px, py, cd.glyth_width, cd.glyth_height, cd.xalign, cd.yalign,
          cd.distance, cd.unk4, cd.unk5⟩, cd.image)] }

/-- Modelled from the spec's words (§4.2 step 2): the same loop body in
exact (unbounded) arithmetic, to be compared with `placeChar`. -/
def specPlaceChar (s : PackState) (g : Nat × CharData) : PackState :=
  let cd := g.2
  let x_at_end_of_char := s.pos_x + cd.glyth_width
  let px := if 512 ≤ x_at_end_of_char then 0 else s.pos_x
  let py := if 512 ≤ x_at_end_of_char then s.lower_y else s.pos_y
  { pos_x := px + cd.glyth_width
    pos_y := py
    lower_y := max s.lower_y (py + cd.glyth_height)
    max_width := max s.max_width cd.glyth_width
    chars := s.chars ++
      [(⟨g.1, px, py, cd.glyth_width, cd.glyth_height, cd.xalign, cd.yalign,
          cd.distance, cd.unk4, cd.unk5⟩, cd.image)] }

/-- Initial packing state (main.rs lines 179-183). -/
def initState : PackState := ⟨0, 0, 0, 0, []⟩

/-- The packing loop over the (BTreeMap-ordered) glyph list, as the code
runs it. -/
def packRun (gs : List (Nat × CharData)) : PackState :=
  gs.foldl placeChar initState

/-- The packing loop in exact arithmetic (the spec's recurrence). -/
def specRun (gs : List (Nat × CharData)) : PackState :=
  gs.foldl specPlaceChar initState

/-- `atlas_width` after the loop (main.rs line 212). -/
def atlasWidth (gs : List (Nat × CharData)) : Nat :=
  roundUp8w (max 512 (packRun gs).max_width)

/-- final `lower_y`, the atlas height, after the loop (main.rs line 213). -/
def atlasHeight (gs : List (Nat × CharData)) : Nat :=
  roundUp8w (packRun gs).lower_y

/-- The bounds check `copy_from` performs before copying a glyph into the
atlas (exact u32 arithmetic in the image crate). -/
def copyOk (W H : Nat) (c : KandChar) : Bool :=
  decide (c.start_x + c.glyth_width ≤ W) &&
  decide (c.start_y + c.glyth_height ≤ H)

/-- The copy loop of main.rs lines 216-222 succeeds exactly when every
placed rectangle passes `copy_from`'s bounds check. -/
def packOk (gs : List (Nat × CharData)) : Bool :=
  (packRun gs).chars.all fun c => copyOk (atlasWidth gs) (atlasHeight gs) c.1

/-- Membership of a pixel coordinate in a placed rectangle. -/
def InRect (c : KandChar) (x y : Nat) : Prop :=
  c.start_x ≤ x ∧ x < c.start_x + c.glyth_width ∧
  c.start_y ≤ y ∧ y < c.start_y + c.glyth_height

instance (c : KandChar) (x y : Nat) : Decidable (InRect c x y) := by
  unfold InRect; infer_instance

/-- One `copy_from`: overwrite the rectangle of `c` with its bitmap. -/
def paint (acc : Nat → Nat → Nat) (c : KandChar × (Nat → Nat → Nat)) :
    Nat → Nat → Nat :=
  fun x y =>
    if InRect c.1 x y then c.2 (x - c.1.start_x) (y - c.1.start_y) else acc x y

/-- The atlas pixel buffer: `ImageBuffer::new` zero fill, then one
`copy_from` per placed glyph, in order (main.rs lines 214-222). -/
def atlasPix (gs : List (Nat × CharData)) : Nat → Nat → Nat :=
  (packRun gs).chars.foldl paint fun _ _ => 0

/-- Rectangle separation: the four-way disjunction that makes two placed
rectangles disjoint. -/
def Sep (a b : KandChar) : Prop :=
  a.start_x + a.glyth_width ≤ b.start_x ∨
  b.start_x + b.glyth_width ≤ a.start_x ∨
  a.start_y + a.glyth_height ≤ b.start_y ∨
  b.start_y + b.glyth_height ≤ a.start_y

/-- `crop_dimms` of the image crate (version 0.23), as invoked by
`DynamicImage::crop` in `generate` (main.rs line 99): the requested
rectangle is clamped to the image bounds, never rejected. -/
def crop_dimms (W H x y w h : Nat) : Nat × Nat × Nat × Nat :=
  let cx := min x W
  let cy := min y H
  (cx, cy, min w (W - cx), min h (H - cy))

/-- A sliced bitmap: dimensions plus pixel function. -/
structure Bitmap where
  width : Nat
  height : Nat
  pix : Nat → Nat → Nat

/-- The slicer step of `generate` (main.rs lines 99-104): crop the record's
rectangle out of the atlas, with the image crate's clamping.  Note this is
total: no error path exists. -/
def sliceChar (W H : Nat) (A : Nat → Nat → Nat) (c : KandChar) : Bitmap :=
  let r := crop_dimms W H c.start_x c.start_y c.glyth_width c.glyth_height
  ⟨r.2.2.1, r.2.2.2, fun i j => A (r.1 + i) (r.2.1 + j)⟩

/-- Maximum width over the input glyph list. -/
def maxGlyphWidth (gs : List (Nat × CharData)) : Nat :=
  gs.foldl (fun m g => max m g.2.glyth_width) 0

/-- Decimal digits of `n`, most significant first, as `format!("{}")`
prints an unsigned integer. -/
def printNat (n : Nat) : List Char :=
  if n = 0 then ['0'] else ((Nat.digits 10 n).map Nat.digitChar).reverse

/-- Decimal rendering of a signed integer, as `format!("{}")` prints an
`i16`: a leading minus sign for negatives. -/
def printInt (i : Int) : List Char :=
  if i < 0 then '-' :: printNat i.natAbs else printNat i.toNat

/-- The value of a decimal digit character, as Rust's
`char::to_digit(10)`. -/
def digitVal (ch : Char) : Option Nat :=
  if '0' ≤ ch ∧ ch ≤ '9' then some (ch.toNat - '0'.toNat) else none

/-- Accumulate decimal digits left to right; `none` on a non-digit, as the
digit loop of Rust's `from_str_radix`. -/
def parseDigitsAux (acc : Nat) : List Char → Option Nat
  | [] => some acc
  | ch :: cs =>
    match digitVal ch with
    | some d => parseDigitsAux (acc * 10 + d) cs
    | none => none

/-- Parse a nonempty all-digit string to its value. -/
def parseDigits : List Char → Option Nat
  | [] => none
  | ch :: cs => parseDigitsAux 0 (ch :: cs)

/-- `u16::from_str`: optional leading plus sign, digits, value at most
65535 (overflow is an error). -/
def parseU16 : List Char → Option Nat
  | [] => none
  | ch :: rest =>
    match parseDigits (if ch = '+' then rest else ch :: rest) with
    | some n => if n ≤ 65535 then some n else none
    | none => none

/-- The nonnegative branch of `i16::from_str`: digits, value at most
32767. -/
def parseI16pos (body : List Char) : Option Int :=
  match parseDigits body with
  | some n => if n ≤ 32767 then some (n : Int) else none
  | none => none

/-- The negative branch of `i16::from_str`: digits after the minus sign,
magnitude at most 32768. -/
def parseI16neg (body : List Char) : Option Int :=
  match parseDigits body with
  | some n => if n ≤ 32768 then some (-(n : Int)) else none
  | none => none

/-- `i16::from_str`: optional sign, digits, value within the i16 range
(overflow is an error). -/
def parseI16 : List Char → Option Int
  | [] => none
  | ch :: rest =>
    if ch = '-' then parseI16neg rest
    else if ch = '+' then parseI16pos rest
    else parseI16pos (ch :: rest)

/-- Split a character list on underscores, as `str::split('_')`: every
maximal underscore-free run, empty runs included (the result is never the
empty list, so prepending to its head is the non-separator case). -/
def splitU : List Char → List (List Char)
  | [] => [[]]
  | ch :: rest =>
    if ch = '_' then [] :: splitU rest
    else (ch :: (splitU rest).headI) :: (splitU rest).tail

/-- The filename stem `generate` writes for a glyph (main.rs lines
105-108, minus the ".png" extension the caller appends): the six fields in
order `char`, `unk1`, `unk2`, `distance`, `unk4`, `unk5`, separated by
underscores. -/
def encodeStem (c : Nat) (x y : Int) (d u4 u5 : Nat) : List Char :=
  printNat c ++ '_' :: printInt x ++ '_' :: printInt y ++ '_' ::
  printNat d ++ '_' :: printNat u4 ++ '_' :: printNat u5

/-- The stem decoding `build` performs (main.rs lines 127-158): split on
underscores and read the first six tokens with `u16`/`i16` `from_str`;
tokens after the sixth are never requested from the iterator. -/
def decodeStem (stem : List Char) :
    Option (Nat × Int × Int × Nat × Nat × Nat) :=
  let toks := splitU stem
  match toks[0]? with
  | none => none
  | some t1 =>
  match parseU16 t1 with
  | none => none
  | some c =>
  match toks[1]? with
  | none => none
  | some t2 =>
  match parseI16 t2 with
  | none => none
  | some x =>
  match toks[2]? with
  | none => none
  | some t3 =>
  match parseI16 t3 with
  | none => none
  | some y =>
  match toks[3]? with
  | none => none
  | some t4 =>
  match parseU16 t4 with
  | none => none
  | some d =>
  match toks[4]? with
  | none => none
  | some t5 =>
  match parseU16 t5 with
  | none => none
  | some u4 =>
  match toks[5]? with
  | none => none
  | some t6 =>
  match parseU16 t6 with
  | none => none
  | some u5 => some (c, x, y, d, u4, u5)

/-- One directory entry handed to `build`: the file's stem and its decoded
image (dimensions plus pixels). -/
structure Entry where
  stem : List Char
  width : Nat
  height : Nat
  pix : Nat → Nat → Nat

/-- Errors the pure part of `build` can produce. -/
inductive BuildErr where
  | badName (stem : List Char)
  | dimTooBig (stem : List Char)
  | duplicateGlyph (stem : List Char)
  | copyFail
deriving DecidableEq

/-- Insert into the key-sorted association list that models the
`BTreeMap<u16, CharData>` of main.rs line 119 (iteration order is
ascending key order). -/
def insortKV (k : Nat) (v : CharData) :
    List (Nat × CharData) → List (Nat × CharData)
  | [] => [(k, v)]
  | kv :: t => if k < kv.1 then (k, v) :: kv :: t else kv :: insortKV k v t

/-- One iteration of the directory-scan loop of main.rs lines 120-175:
decode the stem, range-check the image dimensions (`try_into` to u16), and
insert; a key collision is the duplicate error of lines 163-174, naming
the offending file. -/
def scanEntry (m : List (Nat × CharData)) (e : Entry) :
    Except BuildErr (List (Nat × CharData)) :=
  match decodeStem e.stem with
  | none => .error (.badName e.stem)
  | some (c, x, y, d, u4, u5) =>
    if e.width ≤ 65535 ∧ e.height ≤ 65535 then
      if m.any fun kv => kv.1 = c then .error (.duplicateGlyph e.stem)
      else .ok (insortKV c ⟨e.width, e.height, x, y, d, u4, u5, e.pix⟩ m)
    else .error (.dimTooBig e.stem)

/-- The directory scan of `build` over the entries in iteration order. -/
def scan (es : List Entry) : Except BuildErr (List (Nat × CharData)) :=
  es.foldlM scanEntry []

/-- The pure pipeline of `build`: scan, pack, copy; output is the placed
record list plus the atlas.  Every file write (test.png, the .dic, the
.img) happens in the source only after this whole pipeline has succeeded
or, for test.png, after the copy loop, so an error here means no output
file is produced. -/
def buildModel (es : List Entry) :
    Except BuildErr (List KandChar × Nat × Nat × (Nat → Nat → Nat)) :=
  match scan es with
  | .error err => .error err
  | .ok m =>
    if packOk m then
      .ok ((packRun m).chars.map Prod.fst, atlasWidth m, atlasHeight m,
           atlasPix m)
    else .error .copyFail

/-- The character code a well-formed entry decodes to. -/
def charIdOf (e : Entry) : Nat :=
  match decodeStem e.stem with
  | some t => t.1
  | none => 0

/-- State components fit in u16 (always true of the wrapped run). -/
def Valid (s : PackState) : Prop :=
  s.pos_x < 65536 ∧ s.pos_y < 65536 ∧ s.lower_y < 65536

/-- Invariant of the packing loop in exact arithmetic: the cursor row
starts at `pos_y`, every placed rectangle ends above `lower_y`, finished
rectangles end above the cursor row, current-row rectangles sit on the
cursor row and end left of the cursor, and all placed rectangles are
pairwise separated. -/
def RowInv (s : PackState) : Prop :=
  s.pos_y ≤ s.lower_y ∧
  (∀ c ∈ s.chars, c.1.start_y + c.1.glyth_height ≤ s.lower_y) ∧
  (∀ c ∈ s.chars, c.1.start_y + c.1.glyth_height ≤ s.pos_y ∨
    (c.1.start_y = s.pos_y ∧ c.1.start_x + c.1.glyth_width ≤ s.pos_x)) ∧
  List.Pairwise (fun a b => Sep a.1 b.1) s.chars

/-- The non-placement projection of a placed glyph: everything but
`start_x`/`start_y`, plus the bitmap. -/
def stripChar (c : KandChar × (Nat → Nat → Nat)) :
    Nat × Nat × Nat × Int × Int × Nat × Nat × Nat × (Nat → Nat → Nat) :=
  (c.1.char, c.1.glyth_width, c.1.glyth_height, c.1.unk1, c.1.unk2,
   c.1.distance, c.1.unk4, c.1.unk5, c.2)

/-- The same projection of an input glyph. -/
def stripSrc (g : Nat × CharData) :
    Nat × Nat × Nat × Int × Int × Nat × Nat × Nat × (Nat → Nat → Nat) :=
  (g.1, g.2.glyth_width, g.2.glyth_height, g.2.xalign, g.2.yalign,
   g.2.distance, g.2.unk4, g.2.unk5, g.2.image)

/-- Claim C3 (code bug): the claim says the round-up-to-multiple-of-8
rounding maps 0 to 0 with no arithmetic underflow, so the empty glyph set
yields a 512×0 atlas "rather than crashing or wrapping around".  The code
(main.rs line 213) computes `(lower_y - 1) / 8 + 1) * 8` in u16: at
`lower_y = 0` the subtraction underflows — a debug build panics
(`checkedSub 0 1 = none`), and a release build wraps `0 - 1` to 65535 and
then wraps `8192 * 8 = 65536` back to 0, so the 512×0 result arises only
through two wraparounds, not through a defined 0 ↦ 0 rounding rule. -/
theorem C3_empty_rounding_underflows :
    checkedSub 0 1 = none ∧ sub1w 0 = 65535 ∧ roundUp8w 0 = 0 ∧
    atlasWidth [] = 512 ∧ atlasHeight [] = 0 :=
  ⟨rfl, rfl, rfl, rfl, rfl⟩

/-- Claim C7 (code bug): there is no `GlyphTooWide` error anywhere in the
code.  First input: glyph widths 60000 then 6000 — the second glyph's
width plus its row offset is 66000 > 65535, so the claim demands
`GlyphTooWide`; instead the u16 sum wraps to 464 < 512, the glyph is
placed at x = 60000, and the copy step fails with a generic image error
(`packOk = false`).  Second input: two 600×40000 glyphs — no glyph's width
plus row offset exceeds 65535, yet packing still fails (the second glyph's
row, at y = 40000 with height 40000, overflows the wrapped `lower_y` and
lands outside the 40000-pixel-high atlas), refuting "otherwise packing
never fails". -/
theorem C7_no_glyph_too_wide_error :
    (packOk [(0, ⟨60000, 1, 0, 0, 0, 0, 0, fun _ _ => 0⟩),
             (1, ⟨6000, 1, 0, 0, 0, 0, 0, fun _ _ => 0⟩)] = false ∧
     ((packRun [(0, ⟨60000, 1, 0, 0, 0, 0, 0, fun _ _ => 0⟩),
                (1, ⟨6000, 1, 0, 0, 0, 0, 0, fun _ _ => 0⟩)]).chars.map
        fun c => (c.1.start_x, c.1.start_y)) = [(0, 0), (60000, 0)]) ∧
    (packOk [(0, ⟨600, 40000, 0, 0, 0, 0, 0, fun _ _ => 0⟩),
             (1, ⟨600, 40000, 0, 0, 0, 0, 0, fun _ _ => 0⟩)] = false ∧
     ∀ c ∈ (packRun [(0, ⟨600, 40000, 0, 0, 0, 0, 0, fun _ _ => 0⟩),
                     (1, ⟨600, 40000, 0, 0, 0, 0, 0, fun _ _ => 0⟩)]).chars,
       c.1.start_x + c.1.glyth_width ≤ 65535) := by
  refine ⟨⟨rfl, rfl⟩, rfl, ?_⟩
  decide

/-- Claim C8 (code bug): `generate` slices each record with
`DynamicImage::crop`, which clamps the rectangle to the atlas bounds
(`crop_dimms`) and never reports an error — `sliceChar` is total.  For an
8×8 atlas and a record claiming an 8×8 rectangle at (4, 4), the slicer
silently returns a truncated 4×4 bitmap instead of the
`PlacementOutOfBounds` error the claim requires. -/
theorem C8_out_of_bounds_rect_clamped_not_rejected :
    crop_dimms 8 8 4 4 8 8 = (4, 4, 4, 4) ∧
    (sliceChar 8 8 (fun _ _ => 0) ⟨0, 4, 4, 8, 8, 0, 0, 0, 0, 0⟩).width = 4 ∧
    (sliceChar 8 8 (fun _ _ => 0) ⟨0, 4, 4, 8, 8, 0, 0, 0, 0, 0⟩).height = 4 :=
  ⟨rfl, rfl, rfl⟩

theorem digitVal_digitChar (d : Nat) (hd : d < 10) :
    digitVal (Nat.digitChar d) = some d := by
  interval_cases d <;> decide

theorem digitChar_range (d : Nat) (hd : d < 10) :
    '0' ≤ Nat.digitChar d ∧ Nat.digitChar d ≤ '9' := by
  interval_cases d <;> decide

theorem parseDigitsAux_map (l : List Nat) (a : Nat) (hl : ∀ d ∈ l, d < 10) :
    parseDigitsAux a (l.map Nat.digitChar) =
      some (l.foldl (fun x d => x * 10 + d) a) := by
  induction l generalizing a with
  | nil => rfl
  | cons d t ih =>
    have hd : d < 10 := hl d (by simp)
    simp only [List.map_cons, parseDigitsAux, digitVal_digitChar d hd,
      List.foldl_cons]
    exact ih (a * 10 + d) fun e he => hl e (by simp [he])

theorem foldl_reverse_ofDigits (l : List Nat) (a : Nat) :
    l.reverse.foldl (fun x d => x * 10 + d) a =
      a * 10 ^ l.length + Nat.ofDigits 10 l := by
  induction l generalizing a with
  | nil => simp
  | cons d t ih =>
    simp only [List.reverse_cons, List.foldl_append, ih, List.foldl_cons,
      List.foldl_nil, Nat.ofDigits_cons, List.length_cons, pow_succ]
    ring

theorem printNat_ne_nil (n : Nat) : printNat n ≠ [] := by
  unfold printNat
  by_cases h : n = 0
  · simp [h]
  · simp only [h, if_false]
    intro hcon
    have : Nat.digits 10 n ≠ [] := Nat.digits_ne_nil_iff_ne_zero.mpr h
    simp only [List.reverse_eq_nil_iff, List.map_eq_nil_iff] at hcon
    exact this hcon

theorem printNat_chars (n : Nat) :
    ∀ ch ∈ printNat n, '0' ≤ ch ∧ ch ≤ '9' := by
  intro ch hch
  unfold printNat at hch
  by_cases h : n = 0
  · simp [h] at hch
    simp [hch]
  · simp only [h, if_false, List.mem_reverse, List.mem_map] at hch
    obtain ⟨d, hd, rfl⟩ := hch
    exact digitChar_range d (Nat.digits_lt_base (by norm_num) hd)

theorem parseDigits_printNat (n : Nat) :
    parseDigits (printNat n) = some n := by
  by_cases h : n = 0
  · subst h; rfl
  · have hne : printNat n ≠ [] := printNat_ne_nil n
    have hrw : printNat n = ((Nat.digits 10 n).reverse.map Nat.digitChar) := by
      unfold printNat
      simp [h, List.map_reverse]
    cases hp : printNat n with
    | nil => exact absurd hp hne
    | cons a t =>
      have : parseDigits (printNat n) = parseDigitsAux 0 (printNat n) := by
        rw [hp]; rfl
      rw [← hp, this, hrw]
      rw [parseDigitsAux_map _ 0 fun d hd =>
        Nat.digits_lt_base (by norm_num) (List.mem_reverse.mp hd)]
      rw [foldl_reverse_ofDigits]
      simp [Nat.ofDigits_digits]

theorem not_plus_of_digit (ch : Char) (h : '0' ≤ ch ∧ ch ≤ '9') :
    ch ≠ '+' := by
  rintro rfl
  exact absurd h (by decide)

theorem not_minus_of_digit (ch : Char) (h : '0' ≤ ch ∧ ch ≤ '9') :
    ch ≠ '-' := by
  rintro rfl
  exact absurd h (by decide)

theorem not_underscore_of_digit (ch : Char) (h : '0' ≤ ch ∧ ch ≤ '9') :
    ch ≠ '_' := by
  rintro rfl
  exact absurd h (by decide)

theorem parseU16_printNat (n : Nat) (hn : n ≤ 65535) :
    parseU16 (printNat n) = some n := by
  cases hp : printNat n with
  | nil => exact absurd hp (printNat_ne_nil n)
  | cons a t =>
    have ha : '0' ≤ a ∧ a ≤ '9' := printNat_chars n a (by rw [hp]; simp)
    have := parseDigits_printNat n
    rw [hp] at this
    simp only [parseU16, not_plus_of_digit a ha, if_false, this, hn, if_true]

theorem parseI16_printInt (i : Int) (h1 : -32768 ≤ i) (h2 : i ≤ 32767) :
    parseI16 (printInt i) = some i := by
  by_cases hneg : i < 0
  · have hpr : printInt i = '-' :: printNat i.natAbs := by
      unfold printInt; simp [hneg]
    rw [hpr]
    simp only [parseI16, if_pos rfl, parseI16neg, parseDigits_printNat]
    have hle : i.natAbs ≤ 32768 := by omega
    simp only [hle, if_true]
    congr 1
    omega
  · have hpr : printInt i = printNat i.toNat := by
      unfold printInt; simp [hneg]
    cases hp : printNat i.toNat with
    | nil => exact absurd hp (printNat_ne_nil _)
    | cons a t =>
      have ha : '0' ≤ a ∧ a ≤ '9' := printNat_chars _ a (by rw [hp]; simp)
      have hpd := parseDigits_printNat i.toNat
      rw [hp] at hpd
      rw [hpr, hp]
      simp only [parseI16, not_minus_of_digit a ha, if_false,
        not_plus_of_digit a ha, parseI16pos, hpd]
      have hle : i.toNat ≤ 32767 := by omega
      simp only [hle, if_true]
      congr 1
      omega

theorem parseDigitsAux_chars (cs : List Char) (a n : Nat)
    (h : parseDigitsAux a cs = some n) :
    ∀ ch ∈ cs, '0' ≤ ch ∧ ch ≤ '9' := by
  induction cs generalizing a with
  | nil => intro ch hch; cases hch
  | cons c t ih =>
    intro ch hch
    unfold parseDigitsAux at h
    cases hdv : digitVal c with
    | none => rw [hdv] at h; cases h
    | some d =>
      rw [hdv] at h
      have hc : '0' ≤ c ∧ c ≤ '9' := by
        by_contra hcon
        unfold digitVal at hdv
        rw [if_neg hcon] at hdv
        cases hdv
      rcases List.mem_cons.mp hch with rfl | hmem
      · exact hc
      · exact ih _ h ch hmem

theorem parseU16_chars (cs : List Char) (n : Nat)
    (h : parseU16 cs = some n) : ∀ ch ∈ cs, ch ≠ '_' := by
  intro ch hch
  cases cs with
  | nil => cases hch
  | cons c t =>
    simp only [parseU16] at h
    by_cases hc : c = '+'
    · rw [if_pos hc] at h
      cases hpd : parseDigits t with
      | none => rw [hpd] at h; cases h
      | some m =>
        rcases List.mem_cons.mp hch with rfl | hmem
        · rw [hc]; decide
        · cases t with
          | nil => cases hmem
          | cons b u =>
            exact not_underscore_of_digit ch
              (parseDigitsAux_chars _ _ _ hpd ch hmem)
    · rw [if_neg hc] at h
      cases hpd : parseDigits (c :: t) with
      | none => rw [hpd] at h; cases h
      | some m =>
        exact not_underscore_of_digit ch (parseDigitsAux_chars _ _ _ hpd ch hch)

theorem parseI16_chars (cs : List Char) (i : Int)
    (h : parseI16 cs = some i) : ∀ ch ∈ cs, ch ≠ '_' := by
  intro ch hch
  cases cs with
  | nil => cases hch
  | cons c t =>
    simp only [parseI16] at h
    by_cases hm : c = '-'
    · rw [if_pos hm] at h
      unfold parseI16neg at h
      cases hpd : parseDigits t with
      | none => rw [hpd] at h; cases h
      | some m =>
        rcases List.mem_cons.mp hch with rfl | hmem
        · rw [hm]; decide
        · cases t with
          | nil => cases hmem
          | cons b u =>
            exact not_underscore_of_digit ch
              (parseDigitsAux_chars _ _ _ hpd ch hmem)
    · rw [if_neg hm] at h
      by_cases hp : c = '+'
      · rw [if_pos hp] at h
        unfold parseI16pos at h
        cases hpd : parseDigits t with
        | none => rw [hpd] at h; cases h
        | some m =>
          rcases List.mem_cons.mp hch with rfl | hmem
          · rw [hp]; decide
          · cases t with
            | nil => cases hmem
            | cons b u =>
              exact not_underscore_of_digit ch
                (parseDigitsAux_chars _ _ _ hpd ch hmem)
      · rw [if_neg hp] at h
        unfold parseI16pos at h
        cases hpd : parseDigits (c :: t) with
        | none => rw [hpd] at h; cases h
        | some m =>
          exact not_underscore_of_digit ch
            (parseDigitsAux_chars _ _ _ hpd ch hch)

theorem splitU_cons (ch : Char) (rest : List Char) :
    splitU (ch :: rest) =
      if ch = '_' then [] :: splitU rest
      else (ch :: (splitU rest).headI) :: (splitU rest).tail := rfl

theorem splitU_no_underscore (t : List Char) (h : ∀ ch ∈ t, ch ≠ '_') :
    splitU t = [t] := by
  induction t with
  | nil => rfl
  | cons a u ih =>
    have ha : a ≠ '_' := h a (by simp)
    have hu := ih fun ch hch => h ch (by simp [hch])
    rw [splitU_cons, if_neg ha, hu]
    rfl

theorem splitU_append (t rest : List Char) (h : ∀ ch ∈ t, ch ≠ '_') :
    splitU (t ++ '_' :: rest) = t :: splitU rest := by
  induction t with
  | nil =>
    show splitU ('_' :: rest) = [] :: splitU rest
    rw [splitU_cons, if_pos rfl]
  | cons a u ih =>
    have ha : a ≠ '_' := h a (by simp)
    have hu := ih fun ch hch => h ch (by simp [hch])
    show splitU (a :: (u ++ '_' :: rest)) = (a :: u) :: splitU rest
    rw [splitU_cons, if_neg ha, hu]
    rfl


theorem decodeStem_of_tokens (stem t1 t2 t3 t4 t5 t6 : List Char)
    (ts : List (List Char)) (c d u4 u5 : Nat) (x y : Int)
    (h1 : parseU16 t1 = some c) (h2 : parseI16 t2 = some x)
    (h3 : parseI16 t3 = some y) (h4 : parseU16 t4 = some d)
    (h5 : parseU16 t5 = some u4) (h6 : parseU16 t6 = some u5)
    (hsplit : splitU stem = t1 :: t2 :: t3 :: t4 :: t5 :: t6 :: ts) :
    decodeStem stem = some (c, x, y, d, u4, u5) := by
  unfold decodeStem
  rw [hsplit]
  simp [h1, h2, h3, h4, h5, h6]

/-- Claim C4: for every in-range metadata record, decoding the filename
stem produced by encoding it (six underscore-separated decimal integers in
the order char code, x bearing, y bearing, advance, and the two reserved
fields) succeeds and returns exactly the record. -/
theorem C4_codec_roundtrip (c d u4 u5 : Nat) (x y : Int)
    (hc : c ≤ 65535) (hd : d ≤ 65535) (h4 : u4 ≤ 65535) (h5 : u5 ≤ 65535)
    (hx1 : -32768 ≤ x) (hx2 : x ≤ 32767)
    (hy1 : -32768 ≤ y) (hy2 : y ≤ 32767) :
    decodeStem (encodeStem c x y d u4 u5) = some (c, x, y, d, u4, u5) := by
  have pc := parseU16_printNat c hc
  have px := parseI16_printInt x hx1 hx2
  have py := parseI16_printInt y hy1 hy2
  have pd := parseU16_printNat d hd
  have p4 := parseU16_printNat u4 h4
  have p5 := parseU16_printNat u5 h5
  have nInt : ∀ (i : Int) (j : Int), parseI16 (printInt i) = some j →
      ∀ ch ∈ printInt i, ch ≠ '_' := fun i j hij => parseI16_chars _ _ hij
  have n1 := parseU16_chars _ _ pc
  have n2 := nInt x x px
  have n3 := nInt y y py
  have n4 := parseU16_chars _ _ pd
  have n5 := parseU16_chars _ _ p4
  have n6 := parseU16_chars _ _ p5
  refine decodeStem_of_tokens _ (printNat c) (printInt x) (printInt y)
    (printNat d) (printNat u4) (printNat u5) [] c d u4 u5 x y
    pc px py pd p4 p5 ?_
  unfold encodeStem
  simp only [List.cons_append, List.append_assoc]
  rw [splitU_append _ _ n1, splitU_append _ _ n2, splitU_append _ _ n3,
    splitU_append _ _ n4, splitU_append _ _ n5, splitU_no_underscore _ n6]

theorem C4_codec_roundtrip_witness :
    (65535 : Nat) ≤ 65535 ∧
    decodeStem (encodeStem 65535 (-32768) 32767 0 10 10) =
      some (65535, -32768, 32767, 0, 10, 10) :=
  ⟨by decide,
   C4_codec_roundtrip 65535 0 10 10 (-32768) 32767 (by decide) (by decide)
     (by decide) (by decide) (by decide) (by decide) (by decide) (by decide)⟩

/-- Claim C10: a stem that begins with six parseable underscore-separated
tokens and continues with an underscore and arbitrary further text (hence
more than six tokens) decodes successfully from the first six tokens; the
extra tokens are never requested from the split iterator. -/
theorem C10_extra_tokens_ignored (t1 t2 t3 t4 t5 t6 rest : List Char)
    (c d u4 u5 : Nat) (x y : Int)
    (h1 : parseU16 t1 = some c) (h2 : parseI16 t2 = some x)
    (h3 : parseI16 t3 = some y) (h4 : parseU16 t4 = some d)
    (h5 : parseU16 t5 = some u4) (h6 : parseU16 t6 = some u5) :
    decodeStem (t1 ++ '_' :: t2 ++ '_' :: t3 ++ '_' :: t4 ++ '_' ::
      t5 ++ '_' :: t6 ++ '_' :: rest) = some (c, x, y, d, u4, u5) := by
  refine decodeStem_of_tokens _ t1 t2 t3 t4 t5 t6 (splitU rest) c d u4 u5 x y
    h1 h2 h3 h4 h5 h6 ?_
  simp only [List.cons_append, List.append_assoc]
  rw [splitU_append _ _ (parseU16_chars _ _ h1),
    splitU_append _ _ (parseI16_chars _ _ h2),
    splitU_append _ _ (parseI16_chars _ _ h3),
    splitU_append _ _ (parseU16_chars _ _ h4),
    splitU_append _ _ (parseU16_chars _ _ h5),
    splitU_append _ _ (parseU16_chars _ _ h6)]

theorem C10_extra_tokens_ignored_witness :
    parseU16 ['9'] = some 9 ∧
    decodeStem (['9'] ++ '_' :: ['-', '2'] ++ '_' :: ['3'] ++ '_' ::
      ['4'] ++ '_' :: ['5'] ++ '_' :: ['6'] ++ '_' ::
      ['j', 'u', 'n', 'k', '_', '7']) = some (9, -2, 3, 4, 5, 6) :=
  ⟨by decide,
   C10_extra_tokens_ignored ['9'] ['-', '2'] ['3'] ['4'] ['5'] ['6']
     ['j', 'u', 'n', 'k', '_', '7'] 9 4 5 6 (-2) 3 (by decide) (by decide)
     (by decide) (by decide) (by decide) (by decide)⟩

theorem insortKV_keys_perm (k : Nat) (v : CharData)
    (m : List (Nat × CharData)) :
    ((insortKV k v m).map Prod.fst).Perm (k :: m.map Prod.fst) := by
  induction m with
  | nil => simp [insortKV]
  | cons kv t ih =>
    by_cases hk : k < kv.1
    · simp [insortKV, hk]
    · simp only [insortKV, hk, if_false, List.map_cons]
      exact (ih.cons kv.1).trans (List.Perm.swap k kv.1 (t.map Prod.fst))

theorem scan_duplicate_error (es : List Entry) (m : List (Nat × CharData))
    (hm : (m.map Prod.fst).Nodup)
    (hparse : ∀ e ∈ es, (decodeStem e.stem).isSome ∧
      e.width ≤ 65535 ∧ e.height ≤ 65535)
    (hdup : ¬ (m.map Prod.fst ++ es.map charIdOf).Nodup) :
    ∃ e ∈ es, es.foldlM scanEntry m =
      Except.error (BuildErr.duplicateGlyph e.stem) := by
  induction es generalizing m with
  | nil => simp at hdup; exact absurd hm hdup
  | cons e t ih =>
    obtain ⟨hp, hw, hh⟩ := hparse e (List.mem_cons_self e t)
    obtain ⟨r, hr⟩ := Option.isSome_iff_exists.mp hp
    obtain ⟨c, x, y, d, u4, u5⟩ := r
    have hid : charIdOf e = c := by simp [charIdOf, hr]
    by_cases hdk : m.any fun kv => kv.1 = c
    · refine ⟨e, List.mem_cons_self e t, ?_⟩
      have hse : scanEntry m e = .error (.duplicateGlyph e.stem) := by
        simp only [scanEntry, hr]
        rw [if_pos ⟨hw, hh⟩, if_pos hdk]
      rw [List.foldlM_cons, hse]
      rfl
    · have hse : scanEntry m e =
          .ok (insortKV c ⟨e.width, e.height, x, y, d, u4, u5, e.pix⟩ m) := by
        simp only [scanEntry, hr]
        rw [if_pos ⟨hw, hh⟩, if_neg hdk]
      have hnotin : c ∉ m.map Prod.fst := by
        intro hc
        obtain ⟨kv, hkv, hfst⟩ := List.mem_map.mp hc
        exact hdk (List.any_eq_true.mpr ⟨kv, hkv, by simp [hfst]⟩)
      have hperm := insortKV_keys_perm c
        ⟨e.width, e.height, x, y, d, u4, u5, e.pix⟩ m
      have hm2 : ((insortKV c ⟨e.width, e.height, x, y, d, u4, u5, e.pix⟩
          m).map Prod.fst).Nodup :=
        (hperm.nodup_iff).mpr (List.nodup_cons.mpr ⟨hnotin, hm⟩)
      have hdup2 : ¬ (((insortKV c
          ⟨e.width, e.height, x, y, d, u4, u5, e.pix⟩ m).map Prod.fst)
            ++ t.map charIdOf).Nodup := by
        intro hcon
        apply hdup
        have hperm2 := (hperm.append_right (t.map charIdOf))
        have hcon2 := hperm2.nodup_iff.mp hcon
        have hmid : ((m.map Prod.fst ++ charIdOf e :: t.map charIdOf).Perm
            (charIdOf e :: (m.map Prod.fst ++ t.map charIdOf))) :=
          List.perm_middle
        rw [List.map_cons]
        refine hmid.nodup_iff.mpr ?_
        rw [hid]
        exact hcon2
      obtain ⟨e2, he2, hfold⟩ := ih _ hm2
        (fun e3 he3 => hparse e3 (List.mem_cons_of_mem e he3)) hdup2
      refine ⟨e2, List.mem_cons_of_mem e he2, ?_⟩
      rw [List.foldlM_cons, hse]
      exact hfold

/-- Claim C9: when two files in the build input decode to the same
character code (all names well formed, dimensions in range), the scan
loop aborts with the duplicate-glyph error of main.rs lines 163-174,
naming a conflicting source file.  The error surfaces from `buildModel`
before the packing stage, so none of test.png, the dictionary, or the
texture — all written only later in `build` — is produced. -/
theorem C9_duplicate_aborts_build (es : List Entry)
    (hparse : ∀ e ∈ es, (decodeStem e.stem).isSome ∧
      e.width ≤ 65535 ∧ e.height ≤ 65535)
    (hdup : ¬ (es.map charIdOf).Nodup) :
    ∃ e ∈ es, buildModel es =
      Except.error (BuildErr.duplicateGlyph e.stem) := by
  obtain ⟨e, he, hf⟩ := scan_duplicate_error es [] (by simp) hparse
    (by simpa using hdup)
  refine ⟨e, he, ?_⟩
  unfold buildModel scan
  rw [hf]

theorem C9_duplicate_aborts_build_witness :
    (¬ (([(⟨['1', '_', '0', '_', '0', '_', '1', '_', '1', '_', '1'], 1, 1,
          fun _ _ => 0⟩ : Entry),
         ⟨['1', '_', '2', '_', '3', '_', '4', '_', '5', '_', '6'], 1, 1,
          fun _ _ => 0⟩].map charIdOf).Nodup)) ∧
    ∃ e ∈ [(⟨['1', '_', '0', '_', '0', '_', '1', '_', '1', '_', '1'], 1, 1,
            fun _ _ => 0⟩ : Entry),
           ⟨['1', '_', '2', '_', '3', '_', '4', '_', '5', '_', '6'], 1, 1,
            fun _ _ => 0⟩],
      buildModel [⟨['1', '_', '0', '_', '0', '_', '1', '_', '1', '_', '1'],
          1, 1, fun _ _ => 0⟩,
        ⟨['1', '_', '2', '_', '3', '_', '4', '_', '5', '_', '6'], 1, 1,
          fun _ _ => 0⟩] = Except.error (BuildErr.duplicateGlyph e.stem) :=
  ⟨by decide,
   C9_duplicate_aborts_build _ (by decide) (by decide)⟩

theorem placeChar_chars (s : PackState) (g : Nat × CharData) :
    (placeChar s g).chars = s.chars ++ [(⟨g.1,
      if 512 ≤ w16 (s.pos_x + g.2.glyth_width) then 0 else s.pos_x,
      if 512 ≤ w16 (s.pos_x + g.2.glyth_width) then s.lower_y else s.pos_y,
      g.2.glyth_width, g.2.glyth_height, g.2.xalign, g.2.yalign,
      g.2.distance, g.2.unk4, g.2.unk5⟩, g.2.image)] := rfl

theorem specPlaceChar_chars (s : PackState) (g : Nat × CharData) :
    (specPlaceChar s g).chars = s.chars ++ [(⟨g.1,
      if 512 ≤ s.pos_x + g.2.glyth_width then 0 else s.pos_x,
      if 512 ≤ s.pos_x + g.2.glyth_width then s.lower_y else s.pos_y,
      g.2.glyth_width, g.2.glyth_height, g.2.xalign, g.2.yalign,
      g.2.distance, g.2.unk4, g.2.unk5⟩, g.2.image)] := rfl

theorem chars_prefix_place (gs : List (Nat × CharData)) (s : PackState) :
    s.chars.IsPrefix (gs.foldl placeChar s).chars := by
  induction gs generalizing s with
  | nil => exact List.prefix_rfl
  | cons g u ih =>
    rw [List.foldl_cons]
    refine List.IsPrefix.trans ?_ (ih (placeChar s g))
    exact ⟨_, (placeChar_chars s g).symm⟩

theorem chars_prefix_specPlace (gs : List (Nat × CharData)) (s : PackState) :
    s.chars.IsPrefix (gs.foldl specPlaceChar s).chars := by
  induction gs generalizing s with
  | nil => exact List.prefix_rfl
  | cons g u ih =>
    rw [List.foldl_cons]
    refine List.IsPrefix.trans ?_ (ih (specPlaceChar s g))
    exact ⟨_, (specPlaceChar_chars s g).symm⟩

theorem foldl_place_strip (gs : List (Nat × CharData)) (s : PackState) :
    ((gs.foldl placeChar s).chars).map stripChar =
      (s.chars.map stripChar) ++ gs.map stripSrc := by
  induction gs generalizing s with
  | nil => simp
  | cons g u ih =>
    rw [List.foldl_cons, ih, placeChar_chars]
    simp [stripChar, stripSrc]

theorem placeChar_valid (s : PackState) (g : Nat × CharData)
    (hs : Valid s) : Valid (placeChar s g) := by
  obtain ⟨h1, h2, h3⟩ := hs
  refine ⟨Nat.mod_lt _ (by norm_num), ?_, ?_⟩
  · dsimp only [placeChar]
    split
    · exact h3
    · exact h2
  · exact max_lt h3 (Nat.mod_lt _ (by norm_num))

theorem packOk_bounds (gs : List (Nat × CharData)) (hok : packOk gs = true) :
    ∀ c ∈ (packRun gs).chars,
      c.1.start_x + c.1.glyth_width ≤ atlasWidth gs ∧
      c.1.start_y + c.1.glyth_height ≤ atlasHeight gs := by
  intro c hc
  have h := List.all_eq_true.mp hok c hc
  simpa [copyOk] using h

theorem placeChar_eq_spec_of_bounds (s : PackState) (g : Nat × CharData)
    (W H : Nat) (hW : W < 65536) (hH : H < 65536) (hsx : s.pos_x < 65536)
    (hgw : g.2.glyth_width < 65536)
    (hb : ∀ c ∈ (placeChar s g).chars,
      c.1.start_x + c.1.glyth_width ≤ W ∧
      c.1.start_y + c.1.glyth_height ≤ H) :
    placeChar s g = specPlaceChar s g := by
  by_cases hc : 512 ≤ w16 (s.pos_x + g.2.glyth_width)
  · have hex : 512 ≤ s.pos_x + g.2.glyth_width :=
      le_trans hc (Nat.mod_le _ _)
    have hpair := hb _ (by
      rw [placeChar_chars]
      exact List.mem_append_right _ (by rw [if_pos hc]; exact List.mem_singleton.mpr rfl))
    dsimp only at hpair
    rw [if_pos hc] at hpair
    simp only [placeChar, specPlaceChar, if_pos hc, if_pos hex]
    simp only [PackState.mk.injEq]
    refine ⟨?_, trivial, ?_, trivial, trivial⟩
    · unfold w16
      omega
    · unfold w16
      omega
  · by_cases hex : 512 ≤ s.pos_x + g.2.glyth_width
    · exfalso
      have hpair := hb _ (by
        rw [placeChar_chars]
        exact List.mem_append_right _
          (by rw [if_neg hc]; exact List.mem_singleton.mpr rfl))
      dsimp only at hpair
      rw [if_neg hc] at hpair
      unfold w16 at hc
      omega
    · have hpair := hb _ (by
        rw [placeChar_chars]
        exact List.mem_append_right _
          (by rw [if_neg hc]; exact List.mem_singleton.mpr rfl))
      dsimp only at hpair
      rw [if_neg hc] at hpair
      simp only [placeChar, specPlaceChar, if_neg hc, if_neg hex]
      simp only [PackState.mk.injEq]
      refine ⟨?_, trivial, ?_, trivial, trivial⟩
      · unfold w16
        omega
      · unfold w16
        omega

theorem foldl_place_eq_spec (W H : Nat) (hW : W < 65536) (hH : H < 65536)
    (gs : List (Nat × CharData)) (s : PackState) (hs : Valid s)
    (hdim : ∀ g ∈ gs, g.2.glyth_width < 65536 ∧ g.2.glyth_height < 65536)
    (hb : ∀ c ∈ (gs.foldl placeChar s).chars,
      c.1.start_x + c.1.glyth_width ≤ W ∧
      c.1.start_y + c.1.glyth_height ≤ H) :
    gs.foldl placeChar s = gs.foldl specPlaceChar s := by
  induction gs generalizing s with
  | nil => rfl
  | cons g u ih =>
    rw [List.foldl_cons] at hb
    have hstep := placeChar_eq_spec_of_bounds s g W H hW hH hs.1
      (hdim g (List.mem_cons_self g u)).1
      (fun c hc => hb c ((chars_prefix_place u (placeChar s g)).subset hc))
    rw [List.foldl_cons, List.foldl_cons, ← hstep]
    exact ih (placeChar s g) (placeChar_valid s g hs)
      (fun g2 hg2 => hdim g2 (List.mem_cons_of_mem g hg2)) hb

theorem packRun_eq_specRun (gs : List (Nat × CharData))
    (hdim : ∀ g ∈ gs, g.2.glyth_width ≤ 65535 ∧ g.2.glyth_height ≤ 65535)
    (hok : packOk gs = true) : packRun gs = specRun gs := by
  refine foldl_place_eq_spec (atlasWidth gs) (atlasHeight gs)
    (Nat.mod_lt _ (by norm_num)) (Nat.mod_lt _ (by norm_num)) gs initState
    ⟨by decide, by decide, by decide⟩
    (fun g hg => ⟨by have := (hdim g hg).1; omega,
                  by have := (hdim g hg).2; omega⟩)
    (packOk_bounds gs hok)

theorem specPlaceChar_rowInv (s : PackState) (g : Nat × CharData)
    (hinv : RowInv s) : RowInv (specPlaceChar s g) := by
  obtain ⟨h1, h2, h3, h4⟩ := hinv
  by_cases hc : 512 ≤ s.pos_x + g.2.glyth_width
  · simp only [RowInv, specPlaceChar, if_pos hc, specPlaceChar_chars]
    refine ⟨le_max_left _ _, ?_, ?_, ?_⟩
    · intro c hc2
      rcases List.mem_append.mp hc2 with hold | hnew
      · exact le_trans (h2 c hold) (le_max_left _ _)
      · rw [List.mem_singleton.mp hnew]
        exact le_max_right _ _
    · intro c hc2
      rcases List.mem_append.mp hc2 with hold | hnew
      · exact Or.inl (h2 c hold)
      · rw [List.mem_singleton.mp hnew]
        exact Or.inr ⟨rfl, le_refl _⟩
    · rw [List.pairwise_append]
      refine ⟨h4, List.pairwise_singleton _ _, ?_⟩
      intro a ha b hb
      rw [List.mem_singleton.mp hb]
      unfold Sep
      exact Or.inr (Or.inr (Or.inl (h2 a ha)))
  · simp only [RowInv, specPlaceChar, if_neg hc, specPlaceChar_chars]
    refine ⟨le_trans h1 (le_max_left _ _), ?_, ?_, ?_⟩
    · intro c hc2
      rcases List.mem_append.mp hc2 with hold | hnew
      · exact le_trans (h2 c hold) (le_max_left _ _)
      · rw [List.mem_singleton.mp hnew]
        exact le_max_right _ _
    · intro c hc2
      rcases List.mem_append.mp hc2 with hold | hnew
      · rcases h3 c hold with hfin | ⟨hrow, hx⟩
        · exact Or.inl hfin
        · exact Or.inr ⟨hrow, le_trans hx (Nat.le_add_right _ _)⟩
      · rw [List.mem_singleton.mp hnew]
        exact Or.inr ⟨rfl, le_refl _⟩
    · rw [List.pairwise_append]
      refine ⟨h4, List.pairwise_singleton _ _, ?_⟩
      intro a ha b hb
      rw [List.mem_singleton.mp hb]
      unfold Sep
      rcases h3 a ha with hfin | ⟨hrow, hx⟩
      · exact Or.inr (Or.inr (Or.inl hfin))
      · exact Or.inl hx

theorem specRun_rowInv (gs : List (Nat × CharData)) : RowInv (specRun gs) := by
  have hgen : ∀ (s : PackState), RowInv s →
      RowInv (gs.foldl specPlaceChar s) := by
    induction gs with
    | nil => intro s hs; exact hs
    | cons g u ih =>
      intro s hs
      rw [List.foldl_cons]
      exact ih _ (specPlaceChar_rowInv s g hs)
  refine hgen initState ⟨le_refl 0, ?_, ?_, List.Pairwise.nil⟩
  · intro c hc
    cases hc
  · intro c hc
    cases hc

theorem foldl_paint_not_mem (cs : List (KandChar × (Nat → Nat → Nat)))
    (base : Nat → Nat → Nat) (x y : Nat)
    (h : ∀ c ∈ cs, ¬ InRect c.1 x y) :
    cs.foldl paint base x y = base x y := by
  induction cs generalizing base with
  | nil => rfl
  | cons c t ih =>
    rw [List.foldl_cons, ih _ fun d hd => h d (List.mem_cons_of_mem c hd)]
    simp [paint, h c (List.mem_cons_self c t)]

theorem foldl_paint_mem (cs : List (KandChar × (Nat → Nat → Nat)))
    (c : KandChar × (Nat → Nat → Nat)) (hc : c ∈ cs)
    (hpw : List.Pairwise (fun a b => Sep a.1 b.1) cs)
    (base : Nat → Nat → Nat) (x y : Nat) (hin : InRect c.1 x y) :
    cs.foldl paint base x y = c.2 (x - c.1.start_x) (y - c.1.start_y) := by
  induction cs generalizing base with
  | nil => cases hc
  | cons d t ih =>
    rw [List.foldl_cons]
    rcases List.mem_cons.mp hc with rfl | hmem
    · have hnone : ∀ e ∈ t, ¬ InRect e.1 x y := by
        intro e he hin2
        have hsep : Sep c.1 e.1 := (List.pairwise_cons.mp hpw).1 e he
        unfold Sep at hsep
        unfold InRect at hin hin2
        omega
      rw [foldl_paint_not_mem t _ x y hnone]
      simp [paint, hin]
    · exact ih hmem (List.pairwise_cons.mp hpw).2 _

theorem crop_dimms_of_inbounds (W H x y w h : Nat)
    (hx : x + w ≤ W) (hy : y + h ≤ H) :
    crop_dimms W H x y w h = (x, y, w, h) := by
  simp only [crop_dimms]
  rw [Nat.min_eq_left (by omega), Nat.min_eq_left (by omega),
    Nat.min_eq_left (by omega), Nat.min_eq_left (by omega)]

theorem mem_zip_right {α β : Type} (l₁ : List α) (l₂ : List β)
    (p : α × β) (hp : p ∈ l₁.zip l₂) : p.2 ∈ l₂ := by
  induction l₁ generalizing l₂ with
  | nil => cases hp
  | cons a t ih =>
    cases l₂ with
    | nil => cases hp
    | cons b u =>
      rcases List.mem_cons.mp hp with rfl | hmem
      · exact List.mem_cons_self b u
      · exact List.mem_cons_of_mem b (ih u hmem)

theorem map_eq_on_zip {α β γ : Type} (l₁ : List α) (l₂ : List β)
    (f : α → γ) (g : β → γ) (h : l₁.map f = l₂.map g) :
    ∀ p ∈ l₂.zip l₁, f p.2 = g p.1 := by
  induction l₁ generalizing l₂ with
  | nil =>
    intro p hp
    rw [List.zip_nil_right] at hp
    cases hp
  | cons a t ih =>
    cases l₂ with
    | nil => intro p hp; cases hp
    | cons b u =>
      simp only [List.map_cons, List.cons.injEq] at h
      intro p hp
      rcases List.mem_cons.mp hp with rfl | hmem
      · exact h.1
      · exact ih u h.2 p hmem

/-- Claim C2: for every glyph set with pairwise-distinct character codes
and 16-bit-range dimensions, whenever the packer returns an atlas (its
copy step accepts every placement), every placed rectangle lies fully
inside the returned atlas bounds, and no two placed rectangles share a
pixel. -/
theorem C2_placements_disjoint_in_bounds (gs : List (Nat × CharData))
    (hdim : ∀ g ∈ gs, g.2.glyth_width ≤ 65535 ∧ g.2.glyth_height ≤ 65535)
    (hdist : (gs.map Prod.fst).Nodup)
    (hok : packOk gs = true) :
    (∀ c ∈ (packRun gs).chars,
      c.1.start_x + c.1.glyth_width ≤ atlasWidth gs ∧
      c.1.start_y + c.1.glyth_height ≤ atlasHeight gs) ∧
    List.Pairwise (fun a b => ∀ x y, ¬ (InRect a x y ∧ InRect b x y))
      ((packRun gs).chars.map Prod.fst) := by
  refine ⟨packOk_bounds gs hok, ?_⟩
  rw [packRun_eq_specRun gs hdim hok, List.pairwise_map]
  refine ((specRun_rowInv gs).2.2.2).imp ?_
  intro a b hsep
  intro x y hboth
  unfold Sep at hsep
  unfold InRect at hboth
  omega

theorem C2_placements_disjoint_in_bounds_witness :
    packOk [(0, ⟨3, 4, 0, 0, 0, 0, 0, fun _ _ => 1⟩),
            (1, ⟨5, 2, 0, 0, 0, 0, 0, fun _ _ => 2⟩)] = true ∧
    ((∀ c ∈ (packRun [(0, ⟨3, 4, 0, 0, 0, 0, 0, fun _ _ => 1⟩),
                      (1, ⟨5, 2, 0, 0, 0, 0, 0, fun _ _ => 2⟩)]).chars,
      c.1.start_x + c.1.glyth_width ≤
        atlasWidth [(0, ⟨3, 4, 0, 0, 0, 0, 0, fun _ _ => 1⟩),
                    (1, ⟨5, 2, 0, 0, 0, 0, 0, fun _ _ => 2⟩)] ∧
      c.1.start_y + c.1.glyth_height ≤
        atlasHeight [(0, ⟨3, 4, 0, 0, 0, 0, 0, fun _ _ => 1⟩),
                     (1, ⟨5, 2, 0, 0, 0, 0, 0, fun _ _ => 2⟩)]) ∧
    List.Pairwise (fun a b => ∀ x y, ¬ (InRect a x y ∧ InRect b x y))
      ((packRun [(0, ⟨3, 4, 0, 0, 0, 0, 0, fun _ _ => 1⟩),
                 (1, ⟨5, 2, 0, 0, 0, 0, 0, fun _ _ => 2⟩)]).chars.map
        Prod.fst)) :=
  ⟨by decide,
   C2_placements_disjoint_in_bounds _ (by decide) (by decide) (by decide)⟩

/-- Claim C5 (counterexample): for glyph widths 60000 then 6000 the
recurrence of the claim (exact arithmetic: 60000 + 6000 = 66000 ≥ 512
starts a new row, placing the second glyph at (0, 1)) disagrees with the
code, whose u16 comparison sees 66000 mod 65536 = 464 < 512 and leaves
the second glyph on the same row at x = 60000. -/
theorem C5_recurrence_counterexample :
    ((packRun [(0, ⟨60000, 1, 0, 0, 0, 0, 0, fun _ _ => 0⟩),
               (1, ⟨6000, 1, 0, 0, 0, 0, 0, fun _ _ => 0⟩)]).chars.map
        fun c => (c.1.start_x, c.1.start_y)) = [(0, 0), (60000, 0)] ∧
    ((specRun [(0, ⟨60000, 1, 0, 0, 0, 0, 0, fun _ _ => 0⟩),
               (1, ⟨6000, 1, 0, 0, 0, 0, 0, fun _ _ => 0⟩)]).chars.map
        fun c => (c.1.start_x, c.1.start_y)) = [(0, 0), (0, 1)] :=
  ⟨rfl, rfl⟩

/-- Claim C5 (amended): provided the 16-bit cursor arithmetic never
overflows — which holds exactly when every placement passes the final
copy bounds check — the packer's single pass follows the claimed
recurrence (`specPlaceChar`, exact arithmetic) verbatim: reset the cursor
when `pos_x + width ≥ 512` (so a glyph ending exactly at 512 wraps),
place at the cursor, update `row_bottom` by max, advance `pos_x`. -/
theorem C5_single_pass_recurrence (gs : List (Nat × CharData))
    (hdim : ∀ g ∈ gs, g.2.glyth_width ≤ 65535 ∧ g.2.glyth_height ≤ 65535)
    (hok : packOk gs = true) :
    packRun gs = specRun gs :=
  packRun_eq_specRun gs hdim hok

theorem C5_single_pass_recurrence_witness :
    packOk [(0, ⟨10, 20, 0, 0, 0, 0, 0, fun _ _ => 0⟩),
            (1, ⟨502, 2, 0, 0, 0, 0, 0, fun _ _ => 0⟩)] = true ∧
    packRun [(0, ⟨10, 20, 0, 0, 0, 0, 0, fun _ _ => 0⟩),
             (1, ⟨502, 2, 0, 0, 0, 0, 0, fun _ _ => 0⟩)] =
      specRun [(0, ⟨10, 20, 0, 0, 0, 0, 0, fun _ _ => 0⟩),
               (1, ⟨502, 2, 0, 0, 0, 0, 0, fun _ _ => 0⟩)] :=
  ⟨by decide, C5_single_pass_recurrence _ (by decide) (by decide)⟩

/-- Claim C1: for every glyph set with in-range dimensions and distinct
character codes, once the packer has produced its atlas, slicing each
placed record's rectangle back out of the atlas (the clamping crop of
`generate`) returns the original bitmap byte for byte, and every
non-placement field (char code, both bearings, advance, both reserved
fields) of the placed record equals the input's. -/
theorem C1_pack_slice_roundtrip (gs : List (Nat × CharData))
    (hdim : ∀ g ∈ gs, g.2.glyth_width ≤ 65535 ∧ g.2.glyth_height ≤ 65535)
    (hdist : (gs.map Prod.fst).Nodup)
    (hok : packOk gs = true) :
    ∀ p ∈ gs.zip (packRun gs).chars,
      (sliceChar (atlasWidth gs) (atlasHeight gs) (atlasPix gs) p.2.1).width =
        p.1.2.glyth_width ∧
      (sliceChar (atlasWidth gs) (atlasHeight gs) (atlasPix gs) p.2.1).height =
        p.1.2.glyth_height ∧
      (∀ i, i < p.1.2.glyth_width → ∀ j, j < p.1.2.glyth_height →
        (sliceChar (atlasWidth gs) (atlasHeight gs) (atlasPix gs)
          p.2.1).pix i j = p.1.2.image i j) ∧
      p.2.1.char = p.1.1 ∧ p.2.1.unk1 = p.1.2.xalign ∧
      p.2.1.unk2 = p.1.2.yalign ∧ p.2.1.distance = p.1.2.distance ∧
      p.2.1.unk4 = p.1.2.unk4 ∧ p.2.1.unk5 = p.1.2.unk5 := by
  intro p hp
  have hmem : p.2 ∈ (packRun gs).chars := mem_zip_right _ _ p hp
  have hb := packOk_bounds gs hok p.2 hmem
  have hstripmap : ((packRun gs).chars).map stripChar = gs.map stripSrc := by
    have h := foldl_place_strip gs initState
    simpa [packRun, initState] using h
  have hstrip := map_eq_on_zip _ _ stripChar stripSrc hstripmap p hp
  simp only [stripChar, stripSrc, Prod.mk.injEq] at hstrip
  obtain ⟨e1, e2, e3, e4, e5, e6, e7, e8, e9⟩ := hstrip
  have hcrop := crop_dimms_of_inbounds (atlasWidth gs) (atlasHeight gs)
    p.2.1.start_x p.2.1.start_y p.2.1.glyth_width p.2.1.glyth_height
    hb.1 hb.2
  have hpw : List.Pairwise (fun a b => Sep a.1 b.1) (packRun gs).chars := by
    rw [packRun_eq_specRun gs hdim hok]
    exact (specRun_rowInv gs).2.2.2
  refine ⟨?_, ?_, ?_, e1, e4, e5, e6, e7, e8⟩
  · simp only [sliceChar, hcrop]
    exact e2
  · simp only [sliceChar, hcrop]
    exact e3
  · intro i hi j hj
    have hi2 : i < p.2.1.glyth_width := by rw [e2]; exact hi
    have hj2 : j < p.2.1.glyth_height := by rw [e3]; exact hj
    have hin : InRect p.2.1 (p.2.1.start_x + i) (p.2.1.start_y + j) := by
      unfold InRect
      omega
    have hpaint := foldl_paint_mem (packRun gs).chars p.2 hmem hpw
      (fun _ _ => 0) (p.2.1.start_x + i) (p.2.1.start_y + j) hin
    simp only [sliceChar, hcrop]
    show atlasPix gs (p.2.1.start_x + i) (p.2.1.start_y + j) =
      p.1.2.image i j
    unfold atlasPix
    rw [hpaint, Nat.add_sub_cancel_left, Nat.add_sub_cancel_left, e9]

theorem C1_pack_slice_roundtrip_witness :
    packOk [(0, ⟨2, 2, 1, -1, 3, 4, 5, fun i j => i + 10 * j⟩),
            (7, ⟨3, 1, 0, 2, 6, 7, 8, fun i j => 100 + i + j⟩)] = true ∧
    ∀ p ∈ [(0, (⟨2, 2, 1, -1, 3, 4, 5, fun i j => i + 10 * j⟩ : CharData)),
           (7, ⟨3, 1, 0, 2, 6, 7, 8, fun i j => 100 + i + j⟩)].zip
        (packRun [(0, ⟨2, 2, 1, -1, 3, 4, 5, fun i j => i + 10 * j⟩),
                  (7, ⟨3, 1, 0, 2, 6, 7, 8,
                    fun i j => 100 + i + j⟩)]).chars,
      (sliceChar
        (atlasWidth [(0, ⟨2, 2, 1, -1, 3, 4, 5, fun i j => i + 10 * j⟩),
                     (7, ⟨3, 1, 0, 2, 6, 7, 8, fun i j => 100 + i + j⟩)])
        (atlasHeight [(0, ⟨2, 2, 1, -1, 3, 4, 5, fun i j => i + 10 * j⟩),
                      (7, ⟨3, 1, 0, 2, 6, 7, 8, fun i j => 100 + i + j⟩)])
        (atlasPix [(0, ⟨2, 2, 1, -1, 3, 4, 5, fun i j => i + 10 * j⟩),
                   (7, ⟨3, 1, 0, 2, 6, 7, 8, fun i j => 100 + i + j⟩)])
        p.2.1).width = p.1.2.glyth_width ∧
      (sliceChar
        (atlasWidth [(0, ⟨2, 2, 1, -1, 3, 4, 5, fun i j => i + 10 * j⟩),
                     (7, ⟨3, 1, 0, 2, 6, 7, 8, fun i j => 100 + i + j⟩)])
        (atlasHeight [(0, ⟨2, 2, 1, -1, 3, 4, 5, fun i j => i + 10 * j⟩),
                      (7, ⟨3, 1, 0, 2, 6, 7, 8, fun i j => 100 + i + j⟩)])
        (atlasPix [(0, ⟨2, 2, 1, -1, 3, 4, 5, fun i j => i + 10 * j⟩),
                   (7, ⟨3, 1, 0, 2, 6, 7, 8, fun i j => 100 + i + j⟩)])
        p.2.1).height = p.1.2.glyth_height ∧
      (∀ i, i < p.1.2.glyth_width → ∀ j, j < p.1.2.glyth_height →
        (sliceChar
          (atlasWidth [(0, ⟨2, 2, 1, -1, 3, 4, 5, fun i j => i + 10 * j⟩),
                       (7, ⟨3, 1, 0, 2, 6, 7, 8, fun i j => 100 + i + j⟩)])
          (atlasHeight [(0, ⟨2, 2, 1, -1, 3, 4, 5, fun i j => i + 10 * j⟩),
                        (7, ⟨3, 1, 0, 2, 6, 7, 8, fun i j => 100 + i + j⟩)])
          (atlasPix [(0, ⟨2, 2, 1, -1, 3, 4, 5, fun i j => i + 10 * j⟩),
                     (7, ⟨3, 1, 0, 2, 6, 7, 8, fun i j => 100 + i + j⟩)])
          p.2.1).pix i j = p.1.2.image i j) ∧
      p.2.1.char = p.1.1 ∧ p.2.1.unk1 = p.1.2.xalign ∧
      p.2.1.unk2 = p.1.2.yalign ∧ p.2.1.distance = p.1.2.distance ∧
      p.2.1.unk4 = p.1.2.unk4 ∧ p.2.1.unk5 = p.1.2.unk5 :=
  ⟨by decide,
   C1_pack_slice_roundtrip _ (by decide) (by decide) (by decide)⟩

theorem foldl_max_le (l : List Nat) (m : Nat) :
    m ≤ l.foldl max m ∧ ∀ a ∈ l, a ≤ l.foldl max m := by
  induction l generalizing m with
  | nil => exact ⟨le_refl m, fun a ha => absurd ha (List.not_mem_nil a)⟩
  | cons b t ih =>
    rw [List.foldl_cons]
    obtain ⟨h1, h2⟩ := ih (max m b)
    refine ⟨le_trans (le_max_left m b) h1, ?_⟩
    intro a ha
    rcases List.mem_cons.mp ha with rfl | hmem
    · exact le_trans (le_max_right m a) h1
    · exact h2 a hmem

theorem foldl_max_attained (l : List Nat) (m : Nat) :
    l.foldl max m = m ∨ l.foldl max m ∈ l := by
  induction l generalizing m with
  | nil => exact Or.inl rfl
  | cons b t ih =>
    rw [List.foldl_cons]
    rcases ih (max m b) with h | h
    · rw [h]
      rcases max_choice m b with hm | hm
      · exact Or.inl hm
      · exact Or.inr (by rw [hm]; exact List.mem_cons_self b t)
    · exact Or.inr (List.mem_cons_of_mem b h)

theorem foldl_place_max_width (gs : List (Nat × CharData)) (s : PackState) :
    (gs.foldl placeChar s).max_width =
      (gs.map fun g => g.2.glyth_width).foldl max s.max_width := by
  induction gs generalizing s with
  | nil => rfl
  | cons g u ih =>
    rw [List.foldl_cons, ih, List.map_cons, List.foldl_cons]
    rfl

theorem packRun_max_width (gs : List (Nat × CharData)) :
    (packRun gs).max_width = maxGlyphWidth gs := by
  have h := foldl_place_max_width gs initState
  rw [packRun, h, List.foldl_map]
  rfl

theorem maxGlyphWidth_attained (gs : List (Nat × CharData)) :
    maxGlyphWidth gs = 0 ∨
    ∃ g ∈ gs, g.2.glyth_width = maxGlyphWidth gs := by
  have hrw : maxGlyphWidth gs =
      (gs.map fun g => g.2.glyth_width).foldl max 0 := by
    rw [List.foldl_map]
    rfl
  rw [hrw]
  rcases foldl_max_attained (gs.map fun g => g.2.glyth_width) 0 with h | h
  · exact Or.inl h
  · obtain ⟨g, hg, hge⟩ := List.mem_map.mp h
    exact Or.inr ⟨g, hg, hge⟩

theorem maxGlyphWidth_ge (gs : List (Nat × CharData)) :
    ∀ g ∈ gs, g.2.glyth_width ≤ maxGlyphWidth gs := by
  intro g hg
  have hrw : maxGlyphWidth gs =
      (gs.map fun g => g.2.glyth_width).foldl max 0 := by
    rw [List.foldl_map]
    rfl
  rw [hrw]
  exact (foldl_max_le (gs.map fun g => g.2.glyth_width) 0).2 _
    (List.mem_map_of_mem _ hg)

theorem packRun_width_mem (gs : List (Nat × CharData)) (g : Nat × CharData)
    (hg : g ∈ gs) :
    ∃ c ∈ (packRun gs).chars, c.1.glyth_width = g.2.glyth_width := by
  have hmap : ((packRun gs).chars).map stripChar = gs.map stripSrc := by
    have h := foldl_place_strip gs initState
    simpa [packRun, initState] using h
  have hmem : stripSrc g ∈ gs.map stripSrc := List.mem_map_of_mem _ hg
  rw [← hmap] at hmem
  obtain ⟨c, hcm, hce⟩ := List.mem_map.mp hmem
  refine ⟨c, hcm, ?_⟩
  have h2 := congrArg (fun t => t.2.1) hce
  simpa [stripChar, stripSrc] using h2

theorem placeChar_lower_attained (s : PackState) (g : Nat × CharData)
    (hs : s.lower_y = 0 ∨ ∃ c ∈ s.chars,
      w16 (c.1.start_y + c.1.glyth_height) = s.lower_y) :
    (placeChar s g).lower_y = 0 ∨
    ∃ c ∈ (placeChar s g).chars,
      w16 (c.1.start_y + c.1.glyth_height) = (placeChar s g).lower_y := by
  have hch := placeChar_chars s g
  have hlow : (placeChar s g).lower_y =
      max s.lower_y (w16 ((if 512 ≤ w16 (s.pos_x + g.2.glyth_width)
        then s.lower_y else s.pos_y) + g.2.glyth_height)) := rfl
  rcases max_choice s.lower_y
      (w16 ((if 512 ≤ w16 (s.pos_x + g.2.glyth_width)
        then s.lower_y else s.pos_y) + g.2.glyth_height)) with hm | hm
  · rcases hs with h0 | ⟨c, hcm, hce⟩
    · exact Or.inl (by rw [hlow, hm, h0])
    · refine Or.inr ⟨c, ?_, ?_⟩
      · rw [hch]
        exact List.mem_append_left _ hcm
      · rw [hlow, hm, hce]
  · refine Or.inr ⟨(⟨g.1,
      if 512 ≤ w16 (s.pos_x + g.2.glyth_width) then 0 else s.pos_x,
      if 512 ≤ w16 (s.pos_x + g.2.glyth_width) then s.lower_y else s.pos_y,
      g.2.glyth_width, g.2.glyth_height, g.2.xalign, g.2.yalign,
      g.2.distance, g.2.unk4, g.2.unk5⟩, g.2.image), ?_, ?_⟩
    · rw [hch]
      exact List.mem_append_right _ (List.mem_singleton.mpr rfl)
    · rw [hlow, hm]

theorem packRun_lower_attained (gs : List (Nat × CharData)) :
    (packRun gs).lower_y = 0 ∨
    ∃ c ∈ (packRun gs).chars,
      w16 (c.1.start_y + c.1.glyth_height) = (packRun gs).lower_y := by
  have hgen : ∀ (s : PackState),
      (s.lower_y = 0 ∨ ∃ c ∈ s.chars,
        w16 (c.1.start_y + c.1.glyth_height) = s.lower_y) →
      ((gs.foldl placeChar s).lower_y = 0 ∨
        ∃ c ∈ (gs.foldl placeChar s).chars,
          w16 (c.1.start_y + c.1.glyth_height) =
            (gs.foldl placeChar s).lower_y) := by
    induction gs with
    | nil => intro s hs; exact hs
    | cons g u ih =>
      intro s hs
      rw [List.foldl_cons]
      exact ih (placeChar s g) (placeChar_lower_attained s g hs)
  exact hgen initState (Or.inl rfl)

/-- Claim C6: whenever packing succeeds, the final atlas width is the
smallest multiple of 8 that is at least max(512, widest glyph width), the
final atlas height is the smallest multiple of 8 that is at least the
final `row_bottom` (`lower_y`), both dimensions are multiples of 8, and
the width is at least every glyph's width rounded up to a multiple of
8. -/
theorem C6_final_dims_are_rounded (gs : List (Nat × CharData))
    (hne : gs ≠ [])
    (hdim : ∀ g ∈ gs, g.2.glyth_width ≤ 65535 ∧ g.2.glyth_height ≤ 65535)
    (hok : packOk gs = true) :
    (atlasWidth gs % 8 = 0 ∧ max 512 (maxGlyphWidth gs) ≤ atlasWidth gs ∧
      atlasWidth gs < max 512 (maxGlyphWidth gs) + 8) ∧
    (atlasHeight gs % 8 = 0 ∧ (packRun gs).lower_y ≤ atlasHeight gs ∧
      atlasHeight gs < (packRun gs).lower_y + 8) ∧
    (∀ g ∈ gs, 8 * ((g.2.glyth_width + 7) / 8) ≤ atlasWidth gs) := by
  have hW : atlasWidth gs = roundUp8w (max 512 (maxGlyphWidth gs)) := by
    unfold atlasWidth
    rw [packRun_max_width]
  have hmw : maxGlyphWidth gs ≤ 65528 := by
    by_contra hcon
    push_neg at hcon
    rcases maxGlyphWidth_attained gs with h0 | ⟨g, hg, hge⟩
    · omega
    · obtain ⟨c, hcm, hcw⟩ := packRun_width_mem gs g hg
      have hb := (packOk_bounds gs hok c hcm).1
      have hwle : maxGlyphWidth gs ≤ 65535 := by
        rw [← hge]
        exact (hdim g hg).1
      have hW0 : atlasWidth gs = 0 := by
        rw [hW]
        unfold roundUp8w sub1w
        omega
      rw [hW0, hcw, hge] at hb
      omega
  have hlo : (packRun gs).lower_y ≤ 65528 := by
    rcases packRun_lower_attained gs with h0 | ⟨c, hcm, hce⟩
    · omega
    · by_contra hcon
      push_neg at hcon
      have hlt : (packRun gs).lower_y ≤ 65535 := by
        rw [← hce]
        unfold w16
        omega
      have hb := (packOk_bounds gs hok c hcm).2
      have hH0 : atlasHeight gs = 0 := by
        unfold atlasHeight roundUp8w sub1w
        omega
      rw [hH0] at hb
      have hyz : c.1.start_y + c.1.glyth_height = 0 := by omega
      rw [hyz] at hce
      unfold w16 at hce
      omega
  refine ⟨⟨?_, ?_, ?_⟩, ⟨?_, ?_, ?_⟩, ?_⟩
  · rw [hW]; unfold roundUp8w sub1w; omega
  · rw [hW]; unfold roundUp8w sub1w; omega
  · rw [hW]; unfold roundUp8w sub1w; omega
  · unfold atlasHeight roundUp8w sub1w; omega
  · unfold atlasHeight roundUp8w sub1w; omega
  · unfold atlasHeight roundUp8w sub1w; omega
  · intro g hg
    have h1 := maxGlyphWidth_ge gs g hg
    rw [hW]
    unfold roundUp8w sub1w
    omega

theorem C6_final_dims_are_rounded_witness :
    [(0, (⟨10, 20, 0, 0, 0, 0, 0, fun _ _ => 0⟩ : CharData)),
     (1, ⟨500, 20, 0, 0, 0, 0, 0, fun _ _ => 0⟩),
     (2, ⟨5, 5, 0, 0, 0, 0, 0, fun _ _ => 0⟩)] ≠ [] ∧
    ((atlasWidth [(0, ⟨10, 20, 0, 0, 0, 0, 0, fun _ _ => 0⟩),
       (1, ⟨500, 20, 0, 0, 0, 0, 0, fun _ _ => 0⟩),
       (2, ⟨5, 5, 0, 0, 0, 0, 0, fun _ _ => 0⟩)] % 8 = 0 ∧
      max 512 (maxGlyphWidth [(0, ⟨10, 20, 0, 0, 0, 0, 0, fun _ _ => 0⟩),
        (1, ⟨500, 20, 0, 0, 0, 0, 0, fun _ _ => 0⟩),
        (2, ⟨5, 5, 0, 0, 0, 0, 0, fun _ _ => 0⟩)]) ≤
        atlasWidth [(0, ⟨10, 20, 0, 0, 0, 0, 0, fun _ _ => 0⟩),
          (1, ⟨500, 20, 0, 0, 0, 0, 0, fun _ _ => 0⟩),
          (2, ⟨5, 5, 0, 0, 0, 0, 0, fun _ _ => 0⟩)] ∧
      atlasWidth [(0, ⟨10, 20, 0, 0, 0, 0, 0, fun _ _ => 0⟩),
          (1, ⟨500, 20, 0, 0, 0, 0, 0, fun _ _ => 0⟩),
          (2, ⟨5, 5, 0, 0, 0, 0, 0, fun _ _ => 0⟩)] <
        max 512 (maxGlyphWidth [(0, ⟨10, 20, 0, 0, 0, 0, 0, fun _ _ => 0⟩),
          (1, ⟨500, 20, 0, 0, 0, 0, 0, fun _ _ => 0⟩),
          (2, ⟨5, 5, 0, 0, 0, 0, 0, fun _ _ => 0⟩)]) + 8) ∧
     (atlasHeight [(0, ⟨10, 20, 0, 0, 0, 0, 0, fun _ _ => 0⟩),
        (1, ⟨500, 20, 0, 0, 0, 0, 0, fun _ _ => 0⟩),
        (2, ⟨5, 5, 0, 0, 0, 0, 0, fun _ _ => 0⟩)] % 8 = 0 ∧
      (packRun [(0, ⟨10, 20, 0, 0, 0, 0, 0, fun _ _ => 0⟩),
        (1, ⟨500, 20, 0, 0, 0, 0, 0, fun _ _ => 0⟩),
        (2, ⟨5, 5, 0, 0, 0, 0, 0, fun _ _ => 0⟩)]).lower_y ≤
        atlasHeight [(0, ⟨10, 20, 0, 0, 0, 0, 0, fun _ _ => 0⟩),
          (1, ⟨500, 20, 0, 0, 0, 0, 0, fun _ _ => 0⟩),
          (2, ⟨5, 5, 0, 0, 0, 0, 0, fun _ _ => 0⟩)] ∧
      atlasHeight [(0, ⟨10, 20, 0, 0, 0, 0, 0, fun _ _ => 0⟩),
          (1, ⟨500, 20, 0, 0, 0, 0, 0, fun _ _ => 0⟩),
          (2, ⟨5, 5, 0, 0, 0, 0, 0, fun _ _ => 0⟩)] <
        (packRun [(0, ⟨10, 20, 0, 0, 0, 0, 0, fun _ _ => 0⟩),
          (1, ⟨500, 20, 0, 0, 0, 0, 0, fun _ _ => 0⟩),
          (2, ⟨5, 5, 0, 0, 0, 0, 0, fun _ _ => 0⟩)]).lower_y + 8) ∧
     (∀ g ∈ [(0, (⟨10, 20, 0, 0, 0, 0, 0, fun _ _ => 0⟩ : CharData)),
        (1, ⟨500, 20, 0, 0, 0, 0, 0, fun _ _ => 0⟩),
        (2, ⟨5, 5, 0, 0, 0, 0, 0, fun _ _ => 0⟩)],
       8 * ((g.2.glyth_width + 7) / 8) ≤
         atlasWidth [(0, ⟨10, 20, 0, 0, 0, 0, 0, fun _ _ => 0⟩),
           (1, ⟨500, 20, 0, 0, 0, 0, 0, fun _ _ => 0⟩),
           (2, ⟨5, 5, 0, 0, 0, 0, 0, fun _ _ => 0⟩)])) :=
  ⟨List.cons_ne_nil _ _,
   C6_final_dims_are_rounded _ (List.cons_ne_nil _ _) (by decide)
     (by decide)⟩

end PmdFontTool
